import Mathlib

/-!
Verification of the RAS (repetition-aware sampling) pipeline of
src/sampling.cpp.

Modelling conventions.  The C++ `float` values are embedded as exact
rationals.  The C library function `std::exp` has no exact rational
counterpart, so the whole pipeline is parametrised by a function
`E : ℚ → ℚ` standing for it; theorems that need a property of `exp`
(such as non-negativity of its floating-point results) take it as a
hypothesis.  The pseudorandom draw performed by
`std::discrete_distribution` is abstracted by a natural-number entropy
argument reduced modulo the number of outcomes: the realized outcome is
always some valid index, and every theorem below quantifies over the
entropy, hence holds for every outcome the generator can produce.
-/

/-- The failure cases of the pipeline: the two `std::invalid_argument`
throws (empty score vector, empty distribution given to the weighted
draw) and the `std::runtime_error` of `sampling_ids`, which carries the
configured retry limit. -/
inductive SErr where
  | emptyInput : SErr
  | emptyDistribution : SErr
  | samplingExhausted : Nat → SErr
  deriving DecidableEq

/-- C++ `static_cast<int>` applied to a real value: truncation toward
zero. -/
def truncToInt (q : ℚ) : ℤ := if 0 ≤ q then ⌊q⌋ else ⌈q⌉

/-- The vector `exp(logits[i] - max_val)` computed by `softmax_stable`
before normalisation (`E` stands for `std::exp`). -/
def expVals (E : ℚ → ℚ) (logits : List ℚ) : List ℚ :=
  match logits with
  | [] => []
  | x :: xs =>
    let max_val := xs.foldl max x
    (x :: xs).map (fun v => E (v - max_val))

/-- `softmax_stable` of src/sampling.cpp: subtract the maximum, apply the
exponential, normalise by the sum; when the sum is not positive, assign
the uniform probability `1/n` to every index instead. -/
def softmax_stable (E : ℚ → ℚ) (logits : List ℚ) : List ℚ :=
  if logits.isEmpty then []
  else
    let ev := expVals E logits
    let sum_exp := ev.sum
    if 0 < sum_exp then ev.map (fun v => v / sum_exp)
    else List.replicate ev.length (1 / (ev.length : ℚ))

/-- `sort_indices_desc`: the indices `0 .. n-1` sorted so that the values
are non-increasing, equal values keeping their original relative order.
`std::stable_sort` with comparator `v[i1] > v[i2]` is specified purely by
its output (sorted for the comparator, equal keys in source order), and
the stable `List.insertionSort` with the complementary non-strict order
realizes exactly that output. -/
def sort_indices_desc (v : List ℚ) : List Nat :=
  (List.range v.length).insertionSort (fun i j => v.getD j 0 ≤ v.getD i 0)

/-- `sample_multinomial`: the weighted draw of
`std::discrete_distribution`, abstracted by the entropy `r`; it fails on
an empty weight vector and otherwise returns an index below the
length. -/
def sample_multinomial (probabilities : List ℚ) (r : Nat) : Except SErr Nat :=
  if probabilities.isEmpty then .error .emptyDistribution
  else .ok (r % probabilities.length)

/-- The top-p loop of `nucleus_sampling`: walk the ranked indices in
order, include one exactly when the mass accumulated so far is still
below `top_p`, and stop at the first index considered after the
threshold has been reached. -/
def nucleusTake (probs : List ℚ) (top_p : ℚ) : List Nat → ℚ → List Nat
  | [], _ => []
  | idx :: rest, cum =>
    if cum < top_p then idx :: nucleusTake probs top_p rest (cum + probs.getD idx 0)
    else []

/-- The first `min(top_k, n)` ranked indices considered by
`nucleus_sampling` (the `actual_top_k` cut). -/
def rankedTopK (E : ℚ → ℚ) (ws : List ℚ) (top_k : ℤ) : List Nat :=
  let sorted_indices := sort_indices_desc (softmax_stable E ws)
  sorted_indices.take (min top_k (sorted_indices.length : ℤ)).toNat

/-- The candidate indices produced by the top-p loop of
`nucleus_sampling` (before the non-empty fallback). -/
def nucleusFiltered (E : ℚ → ℚ) (ws : List ℚ) (top_p : ℚ) (top_k : ℤ) : List Nat :=
  nucleusTake (softmax_stable E ws) top_p (rankedTopK E ws top_k) 0

/-- Cumulative mass of the first `j` ranked indices, as accumulated by
the top-p loop. -/
def rankedMass (E : ℚ → ℚ) (ws : List ℚ) (top_k : ℤ) (j : Nat) : ℚ :=
  (((rankedTopK E ws top_k).take j).map
    (fun i => (softmax_stable E ws).getD i 0)).sum

/-- The candidate index set and its weights as finally drawn from by
`nucleus_sampling`: the filtered set, or the single top-ranked index with
weight `1` when filtering produced nothing. -/
def nucleus_candidates (E : ℚ → ℚ) (ws : List ℚ) (top_p : ℚ) (top_k : ℤ) :
    List Nat × List ℚ :=
  let probs := softmax_stable E ws
  let filtered_indices := nucleusFiltered E ws top_p top_k
  if filtered_indices.isEmpty then ([(sort_indices_desc probs).headI], [1])
  else (filtered_indices, filtered_indices.map (fun i => probs.getD i 0))

/-- `nucleus_sampling`: top-k plus top-p truncated sampling.  Fails on an
empty score vector before any other computation, then draws from the
candidate set and returns the original index. -/
def nucleus_sampling (E : ℚ → ℚ) (ws : List ℚ) (top_p : ℚ) (top_k : ℤ)
    (r : Nat) : Except SErr ℤ :=
  if ws.isEmpty then .error .emptyInput
  else do
    let c := nucleus_candidates E ws top_p top_k
    let j ← sample_multinomial c.2 r
    return ((c.1.getD j 0 : Nat) : ℤ)

/-- `random_sampling`: a plain weighted draw from the full softmax
distribution, no truncation. -/
def random_sampling (E : ℚ → ℚ) (ws : List ℚ) (r : Nat) : Except SErr ℤ :=
  if ws.isEmpty then .error .emptyInput
  else do
    let j ← sample_multinomial (softmax_stable E ws) r
    return ((j : Nat) : ℤ)

/-- `ras_sampling`: draw a candidate by nucleus sampling, count its
occurrences in the decoded tokens from `window_start` on, and when the
count reaches the truncated threshold `int(win_size * tau_r)` redraw
from the full distribution instead.  `speech_token_size` is carried but
unused, as in the source. -/
def ras_sampling (E : ℚ → ℚ) (ws : List ℚ) (decoded_tokens : List ℤ)
    (speech_token_size : ℤ) (top_p : ℚ) (top_k : ℤ) (win_size : ℤ)
    (tau_r : ℚ) (r1 r2 : Nat) : Except SErr ℤ := do
  let _ := speech_token_size
  let top_id ← nucleus_sampling E ws top_p top_k r1
  let window_start := (max 0 ((decoded_tokens.length : ℤ) - win_size)).toNat
  let rep_num := (decoded_tokens.drop window_start).count top_id
  if truncToInt ((win_size : ℚ) * tau_r) ≤ (rep_num : ℤ) then
    random_sampling E ws r2
  else
    return top_id

/-- The retry loop of `sampling_ids`: `fuel` counts the draws still
allowed before the exhaustion error (the C++ loop throws after the
`max_trials + 1`-st rejected draw); iteration `k` consumes the entropy
pair `rs k`.  Each iteration runs `ras_sampling` with the default
arguments of its C++ declaration. -/
def sampling_go (E : ℚ → ℚ) (ws : List ℚ) (decoded_tokens : List ℤ)
    (speech_token_size : ℤ) (ignore_eos : Bool) (max_trials : Nat)
    (rs : Nat → Nat × Nat) : Nat → Nat → Except SErr ℤ
  | _, 0 => .error (.samplingExhausted max_trials)
  | k, fuel + 1 => do
    let top_id ← ras_sampling E ws decoded_tokens speech_token_size
      (8/10) 25 10 (1/10) (rs k).1 (rs k).2
    if ignore_eos = false ∨ speech_token_size < 0 ∨ top_id ≠ speech_token_size then
      return top_id
    else
      sampling_go E ws decoded_tokens speech_token_size ignore_eos max_trials rs
        (k + 1) fuel

/-- `sampling_ids`: the public entry point.  It repeats the pipeline,
accepting the drawn id unless `ignore_eos` holds, the sentinel is
defined (non-negative) and the id equals it; after `max_trials + 1`
rejected draws it fails with the exhaustion error carrying
`max_trials`. -/
def sampling_ids (E : ℚ → ℚ) (ws : List ℚ) (decoded_tokens : List ℤ)
    (speech_token_size : ℤ) (ignore_eos : Bool) (max_trials : Nat)
    (rs : Nat → Nat × Nat) : Except SErr ℤ :=
  sampling_go E ws decoded_tokens speech_token_size ignore_eos max_trials rs
    0 (max_trials + 1)

/-- Stated from the spec: a generic bounded-retry wrapper around an
arbitrary per-iteration draw — redraw while the acceptance test fails,
failing with the exhaustion error once `max_retries + 1` draws have been
rejected. -/
def boundedRetry (draw : Nat → Except SErr ℤ) (accept : ℤ → Bool)
    (max_retries : Nat) : Nat → Nat → Except SErr ℤ
  | _, 0 => .error (.samplingExhausted max_retries)
  | k, fuel + 1 => do
    let t ← draw k
    if accept t then return t
    else boundedRetry draw accept max_retries (k + 1) fuel

/-- Stated from the spec: the bounded-retry wrapper started at iteration
`0` with a budget of `max_retries` rejected redraws beyond the first
draw. -/
def boundedRetryWrap (draw : Nat → Except SErr ℤ) (accept : ℤ → Bool)
    (max_retries : Nat) : Except SErr ℤ :=
  boundedRetry draw accept max_retries 0 (max_retries + 1)

/-- Stated from the spec: the last `win` entries of the decoded history,
fewer when the history is shorter. -/
def specLastWindow (win : Nat) (dt : List ℤ) : List ℤ :=
  dt.drop (dt.length - win)

/-- A concrete stand-in for `std::exp` used to instantiate theorems on
sample inputs: the constant function `1`. -/
def constOneExp : ℚ → ℚ := fun _ => 1

/-- A concrete entropy stream for instantiating theorems on sample
inputs: every draw consumes the pair `(0, 0)`. -/
def zeroEntropy : Nat → Nat × Nat := fun _ => (0, 0)

/-! ### Basic facts about the components -/

theorem expVals_length (E : ℚ → ℚ) (l : List ℚ) : (expVals E l).length = l.length := by
  cases l <;> simp [expVals]

theorem expVals_nonneg (E : ℚ → ℚ) (hE : ∀ x, 0 ≤ E x) (l : List ℚ) :
    ∀ q ∈ expVals E l, 0 ≤ q := by
  cases l with
  | nil => simp [expVals]
  | cons x xs =>
    intro q hq
    simp only [expVals, List.mem_map] at hq
    obtain ⟨v, -, rfl⟩ := hq
    exact hE _

theorem sum_map_div (l : List ℚ) (c : ℚ) :
    (l.map (fun v => v / c)).sum = l.sum / c := by
  induction l with
  | nil => simp
  | cons x xs ih => simp [ih, add_div]

theorem softmax_stable_length (E : ℚ → ℚ) (l : List ℚ) :
    (softmax_stable E l).length = l.length := by
  by_cases h : l.isEmpty
  · rw [List.isEmpty_iff] at h
    simp [softmax_stable, h]
  · rw [softmax_stable, if_neg h]
    by_cases hs : 0 < (expVals E l).sum
    · simp [hs, expVals_length]
    · simp [hs, expVals_length]

theorem softmax_stable_ne_nil (E : ℚ → ℚ) {l : List ℚ} (h : l ≠ []) :
    softmax_stable E l ≠ [] := by
  intro hc
  have := softmax_stable_length E l
  rw [hc] at this
  exact h (List.length_eq_zero.mp this.symm)

theorem sort_indices_desc_length (v : List ℚ) :
    (sort_indices_desc v).length = v.length := by
  rw [sort_indices_desc, (List.perm_insertionSort _ _).length_eq, List.length_range]

/-! ### Claims about the Normalizer -/

/-- C6: for every finite, non-empty score vector the Normalizer (which
subtracts the maximum before exponentiating) returns a distribution of
the same length that is non-negative and sums to exactly `1` (hence
within any tolerance), and in the degenerate case where the sum of the
exponentials is exactly zero it returns the uniform distribution `1/n`
instead of dividing by zero.  Non-negativity of the exponential is the
only property of `std::exp` used. -/
theorem softmax_stable_prob_spec (E : ℚ → ℚ) (ws : List ℚ) (hne : ws ≠ [])
    (hE : ∀ x, 0 ≤ E x) :
    (softmax_stable E ws).length = ws.length ∧
    (∀ q ∈ softmax_stable E ws, 0 ≤ q) ∧
    (softmax_stable E ws).sum = 1 ∧
    ((expVals E ws).sum = 0 →
      softmax_stable E ws = List.replicate ws.length (1 / (ws.length : ℚ))) := by
  have hlen : (expVals E ws).length = ws.length := expVals_length E ws
  have hnonempty : ws.isEmpty = false := by
    cases ws with
    | nil => exact absurd rfl hne
    | cons a l => rfl
  have hpos : 0 < ws.length := List.length_pos.mpr hne
  have hcast : ((ws.length : ℚ)) ≠ 0 := by
    exact_mod_cast Nat.pos_iff_ne_zero.mp hpos
  refine ⟨softmax_stable_length E ws, ?_, ?_, ?_⟩
  · intro q hq
    rw [softmax_stable, if_neg (by simp [hnonempty])] at hq
    by_cases hs : 0 < (expVals E ws).sum
    · rw [if_pos hs] at hq
      simp only [List.mem_map] at hq
      obtain ⟨v, hv, rfl⟩ := hq
      exact div_nonneg (expVals_nonneg E hE ws v hv) hs.le
    · rw [if_neg hs] at hq
      rw [List.eq_of_mem_replicate hq]
      positivity
  · rw [softmax_stable, if_neg (by simp [hnonempty])]
    by_cases hs : 0 < (expVals E ws).sum
    · rw [if_pos hs, sum_map_div, div_self (ne_of_gt hs)]
    · rw [if_neg hs, List.sum_replicate, nsmul_eq_mul, hlen,
        mul_one_div, div_self hcast]
  · intro hzero
    rw [softmax_stable, if_neg (by simp [hnonempty])]
    have hs : ¬ 0 < (expVals E ws).sum := by rw [hzero]; exact lt_irrefl 0
    rw [if_neg hs, hlen]

/-- C6 witness: the concrete score vector `[0]` with the constant-one
exponential. -/
theorem softmax_stable_prob_spec_witness :
    ([(0 : ℚ)] ≠ []) ∧
    ((softmax_stable constOneExp [0]).length = 1 ∧
      (∀ q ∈ softmax_stable constOneExp [0], 0 ≤ q) ∧
      (softmax_stable constOneExp [0]).sum = 1 ∧
      ((expVals constOneExp [0]).sum = 0 →
        softmax_stable constOneExp [0] = List.replicate 1 (1 / ((1 : Nat) : ℚ)))) := by
  refine ⟨by simp, ?_⟩
  have h := softmax_stable_prob_spec constOneExp [0] (by simp)
    (fun x => by norm_num [constOneExp])
  simpa using h

/-- C10: the Normalizer is invariant under adding one constant to every
score: the shifted maximum cancels the shift before the exponential is
applied, so the output lists coincide exactly. -/
theorem softmax_stable_translation_invariant (E : ℚ → ℚ) (c : ℚ) (ws : List ℚ) :
    softmax_stable E (ws.map (fun x => x + c)) = softmax_stable E ws := by
  have foldl_max_add : ∀ (xs : List ℚ) (a : ℚ),
      (xs.map (fun x => x + c)).foldl max (a + c) = xs.foldl max a + c := by
    intro xs
    induction xs with
    | nil => intro a; rfl
    | cons y ys ih =>
      intro a
      simp only [List.map_cons, List.foldl_cons]
      rw [max_add_add_right, ih]
  have hev : expVals E (ws.map (fun x => x + c)) = expVals E ws := by
    cases ws with
    | nil => rfl
    | cons x xs =>
      simp only [List.map_cons, expVals, foldl_max_add]
      rw [List.map_map]
      refine congrArg₂ List.cons (congrArg E (by ring))
        (List.map_congr_left fun v hv => ?_)
      simp only [Function.comp_apply]
      exact congrArg E (by ring)
  have hemp : (ws.map (fun x => x + c)).isEmpty = ws.isEmpty := by
    cases ws <;> rfl
  rw [softmax_stable, softmax_stable, hev, hemp]

/-! ### Claims about the Rank Selector -/

/-- C8: `sort_indices_desc` always returns a permutation of `0..n-1`
ordered by non-increasing probability; on strictly decreasing inputs it
returns the identity order, and on all-equal inputs it returns the
original index order (stability of the sort). -/
theorem sort_indices_desc_spec (v : List ℚ) :
    (sort_indices_desc v).Perm (List.range v.length) ∧
    List.Sorted (fun i j => v.getD j 0 ≤ v.getD i 0) (sort_indices_desc v) ∧
    (v.Pairwise (fun a b => a > b) → sort_indices_desc v = List.range v.length) ∧
    ((∀ a ∈ v, ∀ b ∈ v, a = b) → sort_indices_desc v = List.range v.length) := by
  haveI : IsTotal Nat (fun i j => v.getD j 0 ≤ v.getD i 0) :=
    ⟨fun a b => le_total _ _⟩
  haveI : IsTrans Nat (fun i j => v.getD j 0 ≤ v.getD i 0) :=
    ⟨fun a b c h1 h2 => le_trans h2 h1⟩
  refine ⟨List.perm_insertionSort _ _,
    List.sorted_insertionSort _ _, ?_, ?_⟩
  · intro hdec
    unfold sort_indices_desc
    apply List.Sorted.insertionSort_eq
    rw [List.Sorted, List.pairwise_iff_getElem]
    intro i j hi hj hij
    have hi' : i < v.length := by simpa using hi
    have hj' : j < v.length := by simpa using hj
    simp only [List.getElem_range]
    rw [List.getD_eq_getElem v 0 hj', List.getD_eq_getElem v 0 hi']
    exact le_of_lt ((List.pairwise_iff_getElem.mp hdec) i j hi' hj' hij)
  · intro heq
    unfold sort_indices_desc
    apply List.Sorted.insertionSort_eq
    rw [List.Sorted, List.pairwise_iff_getElem]
    intro i j hi hj hij
    have hi' : i < v.length := by simpa using hi
    have hj' : j < v.length := by simpa using hj
    simp only [List.getElem_range]
    rw [List.getD_eq_getElem v 0 hj', List.getD_eq_getElem v 0 hi']
    exact le_of_eq (heq _ (List.getElem_mem hj') _ (List.getElem_mem hi'))

/-- C8 witness: the singleton probability vector `[5]`, on which both the
strictly-decreasing and the all-equal hypotheses hold. -/
theorem sort_indices_desc_spec_witness :
    (sort_indices_desc [(5 : ℚ)]).Perm (List.range 1) ∧
    List.Sorted (fun i j => [(5 : ℚ)].getD j 0 ≤ [(5 : ℚ)].getD i 0)
      (sort_indices_desc [(5 : ℚ)]) ∧
    sort_indices_desc [(5 : ℚ)] = List.range 1 :=
  ⟨(sort_indices_desc_spec [(5 : ℚ)]).1,
   (sort_indices_desc_spec [(5 : ℚ)]).2.1,
   (sort_indices_desc_spec [(5 : ℚ)]).2.2.1 (by simp)⟩

/-! ### The top-p loop -/

theorem nucleusTake_subset (probs : List ℚ) (p : ℚ) :
    ∀ (l : List Nat) (c : ℚ), ∀ i ∈ nucleusTake probs p l c, i ∈ l := by
  intro l
  induction l with
  | nil => intro c i hi; simp [nucleusTake] at hi
  | cons idx rest ih =>
    intro c i hi
    rw [nucleusTake] at hi
    by_cases h : c < p
    · rw [if_pos h] at hi
      rcases List.mem_cons.mp hi with h1 | h2
      · exact h1 ▸ List.mem_cons_self idx rest
      · exact List.mem_cons_of_mem idx (ih _ i h2)
    · rw [if_neg h] at hi
      simp at hi

/-- The shape of the list produced by the top-p loop: it is an initial
segment of the walked list, the mass accumulated before each included
element is below the threshold, and if the walk stopped early the mass
accumulated up to the stopping point already reached the threshold. -/
theorem nucleusTake_spec (probs : List ℚ) (p : ℚ) :
    ∀ (l : List Nat) (c : ℚ),
      nucleusTake probs p l c = l.take (nucleusTake probs p l c).length ∧
      (∀ j, j < (nucleusTake probs p l c).length →
        c + ((l.take j).map (fun i => probs.getD i 0)).sum < p) ∧
      ((nucleusTake probs p l c).length < l.length →
        p ≤ c + ((l.take (nucleusTake probs p l c).length).map
          (fun i => probs.getD i 0)).sum) := by
  intro l
  induction l with
  | nil =>
    intro c
    refine ⟨by simp [nucleusTake], ?_, ?_⟩
    · intro j hj; simp [nucleusTake] at hj
    · intro h; simp [nucleusTake] at h
  | cons idx rest ih =>
    intro c
    by_cases h : c < p
    · have IH := ih (c + probs.getD idx 0)
      rw [nucleusTake, if_pos h]
      refine ⟨?_, ?_, ?_⟩
      · simp only [List.length_cons, List.take_succ_cons]
        exact congrArg (idx :: ·) IH.1
      · intro j hj
        cases j with
        | zero => simpa using h
        | succ j' =>
          have hj' : j' < (nucleusTake probs p rest (c + probs.getD idx 0)).length := by
            simpa using hj
          have := IH.2.1 j' hj'
          simp only [List.take_succ_cons, List.map_cons, List.sum_cons]
          linarith
      · intro hlen
        have hlen' : (nucleusTake probs p rest (c + probs.getD idx 0)).length <
            rest.length := by simpa using hlen
        have := IH.2.2 hlen'
        simp only [List.length_cons, List.take_succ_cons, List.map_cons, List.sum_cons]
        linarith
    · rw [nucleusTake, if_neg h]
      refine ⟨by simp, ?_, ?_⟩
      · intro j hj; simp at hj
      · intro _
        simpa using le_of_not_lt h

/-- Helper: on a non-empty score vector with `top_k ≥ 1`,
`nucleus_sampling` succeeds and returns (the cast of) one of the first
`min(top_k, n)` ranked indices, for every realized draw. -/
theorem nucleus_ok_mem (E : ℚ → ℚ) (ws : List ℚ) (top_p : ℚ) (top_k : ℤ)
    (r : Nat) (hne : ws ≠ []) (hk : 1 ≤ top_k) :
    ∃ i : Nat, nucleus_sampling E ws top_p top_k r = .ok (i : ℤ) ∧
      i ∈ rankedTopK E ws top_k := by
  have hempty : ws.isEmpty = false := by
    cases ws with
    | nil => exact absurd rfl hne
    | cons a l => rfl
  have hslen : (sort_indices_desc (softmax_stable E ws)).length = ws.length := by
    rw [sort_indices_desc_length, softmax_stable_length]
  have hwpos : 0 < ws.length := List.length_pos.mpr hne
  have hK1 : 1 ≤ (min top_k ((sort_indices_desc (softmax_stable E ws)).length : ℤ)).toNat := by
    have h1 : (1 : ℤ) ≤ min top_k ((sort_indices_desc (softmax_stable E ws)).length : ℤ) := by
      refine le_min hk ?_
      rw [hslen]
      exact_mod_cast hwpos
    exact Int.toNat_le_toNat h1
  by_cases hF : nucleusFiltered E ws top_p top_k = []
  · -- fallback branch: the single top-ranked index with weight 1
    refine ⟨(sort_indices_desc (softmax_stable E ws)).headI, ?_, ?_⟩
    · rw [nucleus_sampling, if_neg (by simp [hempty])]
      simp [nucleus_candidates, hF, sample_multinomial, Nat.mod_one]
    · rw [rankedTopK]
      obtain ⟨h0, tl, hcons⟩ : ∃ h0 tl,
          sort_indices_desc (softmax_stable E ws) = h0 :: tl := by
        cases hs : sort_indices_desc (softmax_stable E ws) with
        | nil => exfalso; rw [hs] at hslen; simp at hslen; omega
        | cons a l => exact ⟨a, l, rfl⟩
      rw [hcons]
      obtain ⟨K, hK⟩ : ∃ K, (min top_k ((sort_indices_desc (softmax_stable E ws)).length : ℤ)).toNat
          = K + 1 := ⟨_, (Nat.succ_pred_eq_of_pos hK1).symm⟩
      rw [hcons] at hK
      rw [hK, List.take_succ_cons, List.headI_cons]
      exact List.mem_cons_self h0 _
  · -- regular branch: draw from the filtered set
    have hFpos : 0 < (nucleusFiltered E ws top_p top_k).length :=
      List.length_pos.mpr hF
    have hmod : r % (nucleusFiltered E ws top_p top_k).length <
        (nucleusFiltered E ws top_p top_k).length := Nat.mod_lt _ hFpos
    refine ⟨(nucleusFiltered E ws top_p top_k).getD
      (r % (nucleusFiltered E ws top_p top_k).length) 0, ?_, ?_⟩
    · rw [nucleus_sampling, if_neg (by simp [hempty])]
      have hFempty : (nucleusFiltered E ws top_p top_k).isEmpty = false := by
        cases hc : nucleusFiltered E ws top_p top_k with
        | nil => exact absurd hc hF
        | cons a l => rfl
      simp [nucleus_candidates, hFempty, sample_multinomial, List.isEmpty_iff, hF]
    · rw [List.getD_eq_getElem _ 0 hmod]
      exact nucleusTake_subset _ _ _ _ _
        (List.getElem_mem hmod)

/-! ### Claims about the Truncated Sampler -/

/-- C1: on a non-empty score vector with `top_k ≥ 1` and `top_p ∈ (0,1]`,
the candidate set is an initial segment of the first `min(top_k, n)`
ranked indices, each index was included while the mass accumulated
before it was still below `top_p`, no further index is added once the
threshold is met, and every realized draw returns an index inside the
top-`min(top_k, n)` ranked set. -/
theorem nucleus_sampling_truncation_spec (E : ℚ → ℚ) (ws : List ℚ)
    (top_p : ℚ) (top_k : ℤ) (r : Nat) (hne : ws ≠ []) (hk : 1 ≤ top_k)
    (hp0 : 0 < top_p) (hp1 : top_p ≤ 1) :
    nucleusFiltered E ws top_p top_k =
      (rankedTopK E ws top_k).take (nucleusFiltered E ws top_p top_k).length ∧
    (∀ j, j < (nucleusFiltered E ws top_p top_k).length →
      rankedMass E ws top_k j < top_p) ∧
    ((nucleusFiltered E ws top_p top_k).length < (rankedTopK E ws top_k).length →
      top_p ≤ rankedMass E ws top_k (nucleusFiltered E ws top_p top_k).length) ∧
    ∃ i : Nat, nucleus_sampling E ws top_p top_k r = .ok (i : ℤ) ∧
      i ∈ rankedTopK E ws top_k := by
  have S := nucleusTake_spec (softmax_stable E ws) top_p (rankedTopK E ws top_k) 0
  refine ⟨S.1, ?_, ?_, nucleus_ok_mem E ws top_p top_k r hne hk⟩
  · intro j hj
    have h := S.2.1 j hj
    rw [zero_add] at h
    exact h
  · intro hlen
    have h := S.2.2 hlen
    rw [zero_add] at h
    exact h

/-- C1 witness: the concrete call on scores `[0]` with `top_p = 1/2`,
`top_k = 1` and entropy `0`. -/
theorem nucleus_sampling_truncation_spec_witness :
    ([(0 : ℚ)] ≠ []) ∧ ((1 : ℤ) ≤ 1) ∧ ((0 : ℚ) < 1/2) ∧ ((1/2 : ℚ) ≤ 1) ∧
    (nucleusFiltered constOneExp [0] (1/2) 1 =
      (rankedTopK constOneExp [0] 1).take
        (nucleusFiltered constOneExp [0] (1/2) 1).length ∧
    (∀ j, j < (nucleusFiltered constOneExp [0] (1/2) 1).length →
      rankedMass constOneExp [0] 1 j < 1/2) ∧
    ((nucleusFiltered constOneExp [0] (1/2) 1).length <
        (rankedTopK constOneExp [0] 1).length →
      1/2 ≤ rankedMass constOneExp [0] 1
        (nucleusFiltered constOneExp [0] (1/2) 1).length) ∧
    ∃ i : Nat, nucleus_sampling constOneExp [0] (1/2) 1 0 = .ok (i : ℤ) ∧
      i ∈ rankedTopK constOneExp [0] 1) :=
  ⟨by simp, le_refl _, by norm_num, by norm_num,
   nucleus_sampling_truncation_spec constOneExp [0] (1/2) 1 0 (by simp)
     (le_refl _) (by norm_num) (by norm_num)⟩

/-- C9: the candidate set finally drawn from is never empty (the
single-top-index fallback installs weight `1` whenever filtering yields
nothing), so the empty-distribution failure of the weighted draw is
unreachable and `nucleus_sampling` always succeeds on non-empty
input. -/
theorem nucleus_candidates_nonempty_spec (E : ℚ → ℚ) (ws : List ℚ)
    (top_p : ℚ) (top_k : ℤ) (r : Nat) (hne : ws ≠ []) (hk : 1 ≤ top_k)
    (hp0 : 0 < top_p) (hp1 : top_p ≤ 1) :
    (nucleus_candidates E ws top_p top_k).1 ≠ [] ∧
    (nucleus_candidates E ws top_p top_k).2 ≠ [] ∧
    nucleus_sampling E ws top_p top_k r ≠ .error .emptyDistribution ∧
    ∃ t, nucleus_sampling E ws top_p top_k r = .ok t := by
  obtain ⟨i, hok, -⟩ := nucleus_ok_mem E ws top_p top_k r hne hk
  refine ⟨?_, ?_, ?_, ⟨(i : ℤ), hok⟩⟩
  · by_cases hF : nucleusFiltered E ws top_p top_k = []
    · simp [nucleus_candidates, hF]
    · have hFb : (nucleusFiltered E ws top_p top_k).isEmpty = false := by
        cases hc : nucleusFiltered E ws top_p top_k with
        | nil => exact absurd hc hF
        | cons a l => rfl
      simp [nucleus_candidates, hFb, hF]
  · by_cases hF : nucleusFiltered E ws top_p top_k = []
    · simp [nucleus_candidates, hF]
    · have hFb : (nucleusFiltered E ws top_p top_k).isEmpty = false := by
        cases hc : nucleusFiltered E ws top_p top_k with
        | nil => exact absurd hc hF
        | cons a l => rfl
      simp [nucleus_candidates, hFb, hF]
  · rw [hok]
    simp

/-- C9 witness: the concrete call on scores `[0, 0]` with `top_p = 3/4`,
`top_k = 2` and entropy `1`. -/
theorem nucleus_candidates_nonempty_spec_witness :
    ([(0 : ℚ), 0] ≠ []) ∧ ((1 : ℤ) ≤ 2) ∧ ((0 : ℚ) < 3/4) ∧ ((3/4 : ℚ) ≤ 1) ∧
    ((nucleus_candidates constOneExp [0, 0] (3/4) 2).1 ≠ [] ∧
    (nucleus_candidates constOneExp [0, 0] (3/4) 2).2 ≠ [] ∧
    nucleus_sampling constOneExp [0, 0] (3/4) 2 1 ≠ .error .emptyDistribution ∧
    ∃ t, nucleus_sampling constOneExp [0, 0] (3/4) 2 1 = .ok t) :=
  ⟨by simp, by norm_num, by norm_num, by norm_num,
   nucleus_candidates_nonempty_spec constOneExp [0, 0] (3/4) 2 1 (by simp)
     (by norm_num) (by norm_num) (by norm_num)⟩

/-! ### Helpers for the retry pipeline -/

theorem except_bind_ok {α β : Type} (a : α) (f : α → Except SErr β) :
    (Except.ok a >>= f : Except SErr β) = f a := rfl

theorem except_bind_error {α β : Type} (e : SErr) (f : α → Except SErr β) :
    ((Except.error e : Except SErr α) >>= f : Except SErr β) = .error e := rfl

theorem except_pure {α : Type} (a : α) :
    (pure a : Except SErr α) = Except.ok a := rfl

theorem random_sampling_ok (E : ℚ → ℚ) (ws : List ℚ) (r : Nat) (hne : ws ≠ []) :
    random_sampling E ws r =
      .ok ((r % (softmax_stable E ws).length : Nat) : ℤ) := by
  have hempty : ws.isEmpty = false := by
    cases ws with
    | nil => exact absurd rfl hne
    | cons a l => rfl
  have hsm : (softmax_stable E ws).isEmpty = false := by
    cases hc : softmax_stable E ws with
    | nil => exact absurd hc (softmax_stable_ne_nil E hne)
    | cons a l => rfl
  rw [random_sampling, if_neg (by simp [hempty])]
  simp [sample_multinomial, hsm]

theorem ras_sampling_ok (E : ℚ → ℚ) (ws : List ℚ) (dt : List ℤ) (sts : ℤ)
    (p : ℚ) (k win : ℤ) (tau : ℚ) (r1 r2 : Nat) (hne : ws ≠ [])
    (hk : 1 ≤ k) :
    ∃ t, ras_sampling E ws dt sts p k win tau r1 r2 = .ok t := by
  obtain ⟨i, hok, -⟩ := nucleus_ok_mem E ws p k r1 hne hk
  rw [ras_sampling, hok, except_bind_ok]
  by_cases hrep : truncToInt ((win : ℚ) * tau) ≤
      (((dt.drop (max 0 ((dt.length : ℤ) - win)).toNat).count (i : ℤ) : ℤ))
  · simp [hrep, random_sampling_ok E ws r2 hne]
  · simp only [if_neg hrep]
    exact ⟨(i : ℤ), rfl⟩

theorem sampling_go_ne_emptyInput (E : ℚ → ℚ) (ws : List ℚ) (dt : List ℤ)
    (sts : ℤ) (ie : Bool) (mt : Nat) (rs : Nat → Nat × Nat) (hne : ws ≠ []) :
    ∀ fuel k, sampling_go E ws dt sts ie mt rs k fuel ≠ .error .emptyInput := by
  intro fuel
  induction fuel with
  | zero => intro k; simp [sampling_go]
  | succ n ih =>
    intro k
    simp only [sampling_go]
    obtain ⟨t, ht⟩ := ras_sampling_ok E ws dt sts (8/10) 25 10 (1/10)
      (rs k).1 (rs k).2 hne (by norm_num)
    rw [ht, except_bind_ok]
    by_cases hacc : ie = false ∨ sts < 0 ∨ t ≠ sts
    · rw [if_pos hacc]; simp [except_pure]
    · rw [if_neg hacc]; exact ih (k + 1)

/-! ### Claims about error handling and the Termination Filter -/

/-- C7: a zero-length score vector is rejected with the empty-input error
before any computation, at the truncated sampler, at the full-draw
sampler and at the public entry point alike, while a non-empty vector
never produces that error. -/
theorem empty_input_error_spec :
    (∀ (E : ℚ → ℚ) (top_p : ℚ) (top_k : ℤ) (r : Nat),
      nucleus_sampling E [] top_p top_k r = .error .emptyInput) ∧
    (∀ (E : ℚ → ℚ) (r : Nat), random_sampling E [] r = .error .emptyInput) ∧
    (∀ (E : ℚ → ℚ) (dt : List ℤ) (sts : ℤ) (ie : Bool) (mt : Nat)
      (rs : Nat → Nat × Nat), sampling_ids E [] dt sts ie mt rs = .error .emptyInput) ∧
    (∀ (E : ℚ → ℚ) (ws : List ℚ) (dt : List ℤ) (sts : ℤ) (ie : Bool) (mt : Nat)
      (rs : Nat → Nat × Nat), ws ≠ [] →
      sampling_ids E ws dt sts ie mt rs ≠ .error .emptyInput) := by
  refine ⟨fun E p k r => rfl, fun E r => rfl, fun E dt sts ie mt rs => rfl,
    fun E ws dt sts ie mt rs hne => ?_⟩
  exact sampling_go_ne_emptyInput E ws dt sts ie mt rs hne (mt + 1) 0

/-- C7 witness: the empty call errors out and a singleton call does
not. -/
theorem empty_input_error_spec_witness :
    (nucleus_sampling constOneExp [] (8/10) 25 0 = .error .emptyInput) ∧
    ([(0 : ℚ)] ≠ []) ∧
    (sampling_ids constOneExp [0] [] 0 true 5 zeroEntropy ≠ .error .emptyInput) :=
  ⟨empty_input_error_spec.1 constOneExp (8/10) 25 0, by simp,
   empty_input_error_spec.2.2.2 constOneExp [0] [] 0 true 5 zeroEntropy (by simp)⟩

theorem sampling_go_ok_ne (E : ℚ → ℚ) (ws : List ℚ) (dt : List ℤ) (sts : ℤ)
    (mt : Nat) (rs : Nat → Nat × Nat) (hsts : 0 ≤ sts) :
    ∀ fuel k t, sampling_go E ws dt sts true mt rs k fuel = .ok t → t ≠ sts := by
  intro fuel
  induction fuel with
  | zero => intro k t h; simp [sampling_go] at h
  | succ n ih =>
    intro k t h
    simp only [sampling_go] at h
    cases hras : ras_sampling E ws dt sts (8/10) 25 10 (1/10) (rs k).1 (rs k).2 with
    | error e => rw [hras, except_bind_error] at h; simp at h
    | ok u =>
      rw [hras, except_bind_ok] at h
      by_cases hacc : (true = false ∨ sts < 0 ∨ u ≠ sts)
      · rw [if_pos hacc] at h
        have hut : u = t := by simpa [except_pure] using h
        rcases hacc with h1 | h2 | h3
        · exact absurd h1 (by simp)
        · exact absurd h2 (not_lt.mpr hsts)
        · rw [← hut]; exact h3
      · rw [if_neg hacc] at h
        exact ih (k + 1) t h

/-- C4: acceptance behaviour of the Termination Filter.  With
`ignore_eos = false` the first draw is returned whatever it is (the
sentinel is a legal result); the same holds when no sentinel is
configured (negative `speech_token_size`); and with `ignore_eos = true`
and a defined sentinel, a successful return value is never the
sentinel. -/
theorem sampling_ids_eos_spec (E : ℚ → ℚ) (ws : List ℚ) (dt : List ℤ)
    (mt : Nat) (rs : Nat → Nat × Nat) :
    (∀ sts : ℤ, sampling_ids E ws dt sts false mt rs =
      ras_sampling E ws dt sts (8/10) 25 10 (1/10) (rs 0).1 (rs 0).2) ∧
    (∀ (sts : ℤ) (ie : Bool), sts < 0 → sampling_ids E ws dt sts ie mt rs =
      ras_sampling E ws dt sts (8/10) 25 10 (1/10) (rs 0).1 (rs 0).2) ∧
    (∀ sts : ℤ, 0 ≤ sts → ∀ t, sampling_ids E ws dt sts true mt rs = .ok t →
      t ≠ sts) := by
  refine ⟨?_, ?_, ?_⟩
  · intro sts
    simp only [sampling_ids, sampling_go]
    cases hras : ras_sampling E ws dt sts (8/10) 25 10 (1/10) (rs 0).1 (rs 0).2 with
    | error e => rw [except_bind_error]
    | ok t =>
      rw [except_bind_ok, if_pos (Or.inl (by trivial))]
      rfl
  · intro sts ie hneg
    simp only [sampling_ids, sampling_go]
    cases hras : ras_sampling E ws dt sts (8/10) 25 10 (1/10) (rs 0).1 (rs 0).2 with
    | error e => rw [except_bind_error]
    | ok t =>
      rw [except_bind_ok, if_pos (Or.inr (Or.inl hneg))]
      rfl
  · intro sts hsts t h
    exact sampling_go_ok_ne E ws dt sts mt rs hsts (mt + 1) 0 t h

/-- C4 witness: concrete calls with an undefined sentinel and with a
defined one. -/
theorem sampling_ids_eos_spec_witness :
    (sampling_ids constOneExp [0] [] (-1) true 0 zeroEntropy =
      ras_sampling constOneExp [0] [] (-1) (8/10) 25 10 (1/10)
        (zeroEntropy 0).1 (zeroEntropy 0).2) ∧
    ((0 : ℤ) ≤ 1) ∧
    (∀ t, sampling_ids constOneExp [0] [] 1 true 0 zeroEntropy = .ok t → t ≠ 1) :=
  ⟨(sampling_ids_eos_spec constOneExp [0] [] 0 zeroEntropy).2.1 (-1) true
      (by norm_num),
   by norm_num,
   (sampling_ids_eos_spec constOneExp [0] [] 0 zeroEntropy).2.2 1 (by norm_num)⟩

theorem sampling_go_exhausts (E : ℚ → ℚ) (ws : List ℚ) (dt : List ℤ) (sts : ℤ)
    (mt : Nat) (rs : Nat → Nat × Nat) (hsts : 0 ≤ sts) :
    ∀ fuel k, (∀ j, j < k + fuel →
      ras_sampling E ws dt sts (8/10) 25 10 (1/10) (rs j).1 (rs j).2 = .ok sts) →
    sampling_go E ws dt sts true mt rs k fuel = .error (.samplingExhausted mt) := by
  intro fuel
  induction fuel with
  | zero => intro k _; simp [sampling_go]
  | succ n ih =>
    intro k hall
    simp only [sampling_go]
    rw [hall k (by omega), except_bind_ok]
    have hcond : ¬(true = false ∨ sts < 0 ∨ sts ≠ sts) := by
      rintro (h | h | h)
      · exact absurd h (by simp)
      · exact absurd h (not_lt.mpr hsts)
      · exact h rfl
    rw [if_neg hcond]
    exact ih (k + 1) (fun j hj => hall j (by omega))

/-- C3: with `ignore_eos = true` and a defined sentinel, if the first
`max_trials + 1` draws (iterations `0..max_trials`) all return the
sentinel, the call fails with the sampling-exhausted error carrying the
configured limit — never a silent default id.  The hypothesis constrains
only `max_trials + 1` draws, so at most that many rejected draws occur
before failing, and since `sampling_ids` is a total function the call
always terminates. -/
theorem sampling_ids_exhaustion_spec (E : ℚ → ℚ) (ws : List ℚ) (dt : List ℤ)
    (sts : ℤ) (mt : Nat) (rs : Nat → Nat × Nat) (hsts : 0 ≤ sts)
    (hall : ∀ j, j ≤ mt →
      ras_sampling E ws dt sts (8/10) 25 10 (1/10) (rs j).1 (rs j).2 = .ok sts) :
    sampling_ids E ws dt sts true mt rs = .error (.samplingExhausted mt) :=
  sampling_go_exhausts E ws dt sts mt rs hsts (mt + 1) 0
    (fun j hj => hall j (by omega))

/-- C3 witness: a single-token vocabulary whose only id is the sentinel
`0`; with `max_trials = 5` the call raises the exhaustion error citing
`5`. -/
theorem sampling_ids_exhaustion_spec_witness :
    ((0 : ℤ) ≤ 0) ∧
    sampling_ids constOneExp [0] [] 0 true 5 zeroEntropy =
      .error (.samplingExhausted 5) := by
  have hras : ras_sampling constOneExp [0] [] 0 (8/10) 25 10 (1/10) 0 0 = .ok 0 := by
    norm_num [ras_sampling, nucleus_sampling, nucleus_candidates, nucleusFiltered,
      nucleusTake, rankedTopK, sort_indices_desc, List.insertionSort,
      List.orderedInsert, List.range_succ, softmax_stable, expVals, constOneExp,
      sample_multinomial, truncToInt, except_bind_ok]
  exact ⟨le_refl 0,
    sampling_ids_exhaustion_spec constOneExp [0] [] 0 5 zeroEntropy (le_refl 0)
      (fun j hj => by simpa [zeroEntropy] using hras)⟩

/-- C5: the public entry point is exactly the bounded-retry wrapper
around `ras_sampling` applied with the fixed defaults `top_p = 8/10`,
`top_k = 25`, `window_size = 10` and `tau_r = 1/10`; `sampling_ids`
exposes no parameters for these four values, so callers cannot vary
them. -/
theorem sampling_ids_is_bounded_retry (E : ℚ → ℚ) (ws : List ℚ) (dt : List ℤ)
    (sts : ℤ) (ie : Bool) (mt : Nat) (rs : Nat → Nat × Nat) :
    sampling_ids E ws dt sts ie mt rs =
      boundedRetryWrap
        (fun k => ras_sampling E ws dt sts (8/10) 25 10 (1/10) (rs k).1 (rs k).2)
        (fun t => !ie || decide (sts < 0) || decide (t ≠ sts)) mt := by
  rw [sampling_ids, boundedRetryWrap]
  suffices h : ∀ fuel k, sampling_go E ws dt sts ie mt rs k fuel =
      boundedRetry
        (fun k => ras_sampling E ws dt sts (8/10) 25 10 (1/10) (rs k).1 (rs k).2)
        (fun t => !ie || decide (sts < 0) || decide (t ≠ sts)) mt k fuel by
    exact h (mt + 1) 0
  intro fuel
  induction fuel with
  | zero => intro k; simp [sampling_go, boundedRetry]
  | succ n ih =>
    intro k
    simp only [sampling_go, boundedRetry]
    cases hras : ras_sampling E ws dt sts (8/10) 25 10 (1/10) (rs k).1 (rs k).2 with
    | error e => rw [except_bind_error, except_bind_error]
    | ok t =>
      rw [except_bind_ok, except_bind_ok]
      by_cases hacc : ie = false ∨ sts < 0 ∨ t ≠ sts
      · have hb : (!ie || decide (sts < 0) || decide (t ≠ sts)) = true := by
          rcases hacc with h1 | h2 | h3
          · simp [h1]
          · simp [h2]
          · simp [h3]
        rw [if_pos hacc, if_pos hb]
      · have hb : ¬((!ie || decide (sts < 0) || decide (t ≠ sts)) = true) := by
          push_neg at hacc
          obtain ⟨h1, h2, h3⟩ := hacc
          simp [h1, h2, h3]
        rw [if_neg hacc, if_neg hb]
        exact ih (k + 1)

/-- The repetition check of `ras_sampling`, rephrased over the last
`win` history entries and an exact floor threshold: for a non-negative
window and fraction, the code's start index `max(0, n - win)` selects
exactly the trailing `win` entries and the C cast coincides with the
floor. -/
theorem ras_window_eq (E : ℚ → ℚ) (ws : List ℚ) (dt : List ℤ) (sts : ℤ)
    (p : ℚ) (k win : ℤ) (tau : ℚ) (r1 r2 : Nat) (hwin : 0 ≤ win)
    (htau : 0 ≤ tau) :
    ras_sampling E ws dt sts p k win tau r1 r2 =
      match nucleus_sampling E ws p k r1 with
      | .error e => .error e
      | .ok cand =>
        if (⌊(win : ℚ) * tau⌋ : ℤ) ≤ ((specLastWindow win.toNat dt).count cand : ℤ)
        then random_sampling E ws r2
        else .ok cand := by
  have htr : truncToInt ((win : ℚ) * tau) = ⌊(win : ℚ) * tau⌋ := by
    rw [truncToInt, if_pos (mul_nonneg (by exact_mod_cast hwin) htau)]
  have hdrop : (max 0 ((dt.length : ℤ) - win)).toNat = dt.length - win.toNat := by
    rcases le_total ((dt.length : ℤ) - win) 0 with h | h
    · rw [max_eq_left h]
      omega
    · rw [max_eq_right h]
      omega
  rw [ras_sampling]
  cases hras : nucleus_sampling E ws p k r1 with
  | error e => rw [except_bind_error]
  | ok cand =>
    rw [except_bind_ok, htr, hdrop]
    rfl

/-- C2: the Repetition Guard counts the candidate's occurrences in
exactly the trailing `win` history entries (fewer when the history is
shorter), redraws from the full untruncated distribution when the count
reaches `floor(win * tau)` and keeps the candidate otherwise; on the
concrete history `[1,5,2,8,1,3,7,1,4,9,6,1,0,2,5]` with `win = 10` and
`tau = 1/10` every candidate equal to `1` triggers the
full-distribution redraw. -/
theorem ras_sampling_repetition_spec (E : ℚ → ℚ) (ws : List ℚ) (dt : List ℤ)
    (sts : ℤ) (p : ℚ) (k win : ℤ) (tau : ℚ) (r1 r2 : Nat) (hwin : 0 ≤ win)
    (htau : 0 ≤ tau) :
    (ras_sampling E ws dt sts p k win tau r1 r2 =
      match nucleus_sampling E ws p k r1 with
      | .error e => .error e
      | .ok cand =>
        if (⌊(win : ℚ) * tau⌋ : ℤ) ≤ ((specLastWindow win.toNat dt).count cand : ℤ)
        then random_sampling E ws r2
        else .ok cand) ∧
    (∀ s1 s2 : Nat, nucleus_sampling E ws (8/10) 25 s1 = .ok 1 →
      ras_sampling E ws [1, 5, 2, 8, 1, 3, 7, 1, 4, 9, 6, 1, 0, 2, 5] sts
          (8/10) 25 10 (1/10) s1 s2 =
        random_sampling E ws s2) := by
  refine ⟨ras_window_eq E ws dt sts p k win tau r1 r2 hwin htau, ?_⟩
  intro s1 s2 hcand
  rw [ras_window_eq E ws [1, 5, 2, 8, 1, 3, 7, 1, 4, 9, 6, 1, 0, 2, 5] sts
    (8/10) 25 10 (1/10) s1 s2 (by norm_num) (by norm_num), hcand]
  have hprod : (((10 : ℤ) : ℚ)) * (1/10) = 1 := by norm_num
  have hcount :
      ((specLastWindow (10 : ℤ).toNat [1, 5, 2, 8, 1, 3, 7, 1, 4, 9, 6, 1, 0, 2, 5]).count
        (1 : ℤ) : ℤ) = 2 := by
    decide
  show (if (⌊((10 : ℤ) : ℚ) * (1/10)⌋ : ℤ) ≤
      ((specLastWindow (10 : ℤ).toNat
        [1, 5, 2, 8, 1, 3, 7, 1, 4, 9, 6, 1, 0, 2, 5]).count (1 : ℤ) : ℤ)
    then random_sampling E ws s2 else Except.ok 1) = random_sampling E ws s2
  rw [hprod, Int.floor_one, hcount, if_pos (by norm_num)]

/-- C2 witness: the two-token score vector `[0, 0]` with entropy `1`
makes the Truncated Sampler return candidate `1`, which occurs twice in
the trailing window, so the call redraws from the full distribution. -/
theorem ras_sampling_repetition_spec_witness :
    ((0 : ℤ) ≤ 10) ∧ ((0 : ℚ) ≤ 1/10) ∧
    (ras_sampling constOneExp [0, 0] [1, 5, 2, 8, 1, 3, 7, 1, 4, 9, 6, 1, 0, 2, 5] 9
        (8/10) 25 10 (1/10) 1 0 =
      random_sampling constOneExp [0, 0] 0) := by
  refine ⟨by norm_num, by norm_num,
    (ras_sampling_repetition_spec constOneExp [0, 0]
        [1, 5, 2, 8, 1, 3, 7, 1, 4, 9, 6, 1, 0, 2, 5] 9 (8/10) 25 10 (1/10) 1 0
        (by norm_num) (by norm_num)).2 1 0 ?_⟩
  norm_num [nucleus_sampling, nucleus_candidates, nucleusFiltered, nucleusTake,
    rankedTopK, sort_indices_desc, List.insertionSort, List.orderedInsert,
    List.range_succ, softmax_stable, expVals, constOneExp, sample_multinomial]
